import Mathlib

/-!
# Verification of the `certain` CT-log streaming client

A shallow embedding, in Lean 4, of the parts of the `certain` library that the
frozen claims talk about:

* the wire codec for Merkle-tree leaves and chain blobs
  (`src/endpoint.rs`, `parse_log_entry` / `read_log_entries`),
* the HTTP status dispatch of `get_log_size` / `get_log_entries`
  (`src/endpoint.rs`) and the `Retry-After` handling (`get_rate_timeout`),
* the certificate post-processing of `src/certificate.rs`
  (validity normalization, subject-alternate-name filtering),
* the ordered bounded-concurrency pipeline of `stream` (`src/lib.rs`).

Modelling conventions:

* Bytes and machine integers are `Nat` (with explicit `% 2 ^ 64` where the
  source performs a wrapping cast); `i64` values are `Int`.
* `DateTime<Utc>` instants are modelled as integer seconds since the Unix
  epoch, which is the resolution the source uses (`from_timestamp(secs, 0)`).
* External collaborators that the spec declares out of scope (X.509/DER
  parsing, JSON, base64, RFC-2822 date parsing, `IpAddr` rendering) enter the
  embedding as explicit function parameters ("oracles"); everything the
  repository itself computes is embedded executably.
-/

namespace Certain

/-! ## Data model (`src/certificate.rs`, `src/endpoint.rs`, `src/error.rs`) -/

/-- `CertificateValidity` from `src/certificate.rs`: the two instants are
modelled as integer seconds since the Unix epoch (`end` is a Lean keyword, so
the second field is `end_`). -/
structure CertificateValidity where
  begin : ℤ
  end_ : ℤ
deriving DecidableEq, Repr

/-- `CertificateAlternateName` from `src/certificate.rs`. -/
inductive CertificateAlternateName where
  | Directory (s : String)
  | Hostname (s : String)
  | Address (s : String)
  | Email (s : String)
  | Uri (s : String)
deriving DecidableEq, Repr

/-- `CertificateAlternateName::as_str` from `src/certificate.rs`. -/
def CertificateAlternateName.as_str : CertificateAlternateName → String
  | .Directory s => s
  | .Hostname s => s
  | .Address s => s
  | .Email s => s
  | .Uri s => s

/-- `Certificate` from `src/certificate.rs`.  `encoded` holds the DER bytes
consumed by the parser. -/
structure Certificate where
  issuer : Option String
  authority : Bool
  organization : Option String
  subject_name : Option String
  subject_alternate : List CertificateAlternateName
  validity : CertificateValidity
  encoded : List ℕ
deriving DecidableEq, Repr

/-- The wire-codec error type as it is *used* by `src/endpoint.rs`, which
constructs `LogError::BufferRead` in four `map_err` positions (in addition to
the four variants that `src/error.rs` declares). -/
inductive LogError where
  | UnsupportedVersion (v : ℕ)
  | UnsupportedLeaf (v : ℕ)
  | UnsupportedEntry (v : ℕ)
  | Parse (reason : String)
  | BufferRead (reason : String)
deriving DecidableEq, Repr

/-- The `LogError` enum exactly as *declared* in `src/error.rs` (lines 9-19):
it has four variants and no `BufferRead`. -/
inductive LogErrorDecl where
  | UnsupportedVersion (v : ℕ)
  | UnsupportedLeaf (v : ℕ)
  | UnsupportedEntry (v : ℕ)
  | Parse (reason : String)
deriving DecidableEq, Repr

/-- `ResponseError` from `src/error.rs`. -/
inductive ResponseError where
  | Client (code : ℕ)
  | Server (code : ℕ)
deriving DecidableEq, Repr

/-- `StreamError` from `src/error.rs`.  The payloads of the variants that wrap
external error types (`url`, `reqwest`, `std::io`, `tokio`) carry no design
content and are dropped. -/
inductive StreamError where
  | Endpoint
  | Request
  | Response (e : ResponseError)
  | Runtime
  | Task
  | Log (e : LogError)
deriving DecidableEq, Repr

/-- `Entry` from `src/endpoint.rs`: the SCT timestamp (seconds since the Unix
epoch, second resolution), the parsed leaf certificate and its issuer chain. -/
structure Entry where
  timestamp : ℤ
  certificate : Certificate
  chain : List Certificate
deriving DecidableEq, Repr

/-! ## Byte-cursor primitives

`parse_log_entry` walks its two byte slices with `std::io::Cursor`.  The
`byteorder` readers (`read_u8`, `read_u16`, `read_u24`, `read_u64`) use
`read_exact` semantics: they fail when fewer bytes remain than requested.
The plain `Read::read` into a pre-zeroed `vec![0; len]`, by contrast, *never*
fails on an in-memory slice: it copies `min(len, remaining)` bytes, leaves the
tail zeroed, and advances by the number of bytes copied. -/

/-- Big-endian value of a byte list (how `byteorder::BigEndian` combines the
bytes it read). -/
def beBytes (l : List ℕ) : ℕ := l.foldl (fun a b => a * 256 + b) 0

/-- The bytes of `data` available starting at `pos`, capped at `n`. -/
def sliceAt (data : List ℕ) (pos n : ℕ) : List ℕ := (data.drop pos).take n

/-- The buffer produced by `let mut buffer = vec![0; n]; cursor.read(&mut buffer)`
at position `pos`: the available bytes, zero-padded to length `n`. -/
def readBuffer (data : List ℕ) (pos n : ℕ) : List ℕ :=
  sliceAt data pos n ++ List.replicate (n - (sliceAt data pos n).length) 0

/-! ## Wire codec (`parse_log_entry`, `src/endpoint.rs` lines 97-221) -/

/-- The certificate-chain loop of `parse_log_entry`
(`while cursor.position() < chain_end { ... }`).  `certParse` is the external
`Certificate::parse` (X.509 first, TBS fallback) of the
`certain-certificate` crate.  Each iteration reads a `u24` length (failing
with `Parse` at end of input), reads that many bytes through the infallible
zero-padding `Read::read`, and parses them.  Note that the source computes
`chain_end` from the cursor position *before* the `u24` length read
(Rust evaluates `cursor.position() + cursor.read_u24(..)` left to right), so
`chainEnd` is measured from the position at which the length field starts. -/
def read_chain (certParse : List ℕ → Option Certificate) (data : List ℕ) :
    (pos : ℕ) → (chainEnd : ℕ) → (acc : List Certificate) →
    Except LogError (List Certificate) := fun pos chainEnd acc =>
  if pos < chainEnd then
    if pos + 3 ≤ data.length then
      match certParse (readBuffer data (pos + 3) (beBytes (sliceAt data pos 3))) with
      | none => .error (.Parse "parsing certificate chain entry!")
      | some cert =>
          read_chain certParse data
            (pos + 3 + (sliceAt data (pos + 3) (beBytes (sliceAt data pos 3))).length)
            chainEnd (acc ++ [cert])
    else .error (.Parse "reading certificate chain entry length!")
  else .ok acc
termination_by pos chainEnd _ => chainEnd - pos
decreasing_by simp_wf; omega

/-- The `leaf_entry_variant = 0` arm of `parse_log_entry`
(`src/endpoint.rs` lines 123-163, the `X509ChainEntry` case), with the
already-computed `timestamp` passed in.  The `u24` certificate length sits at
bytes 12-14 of `data`; in `extra_data` the `u24` total chain length sits at
bytes 0-2 and the loop bound `chain_end` is `0 + total` because the source
reads `cursor.position()` *before* `read_u24` advances the cursor. -/
def parse_x509_entry (certParse : List ℕ → Option Certificate) (timestamp : ℤ)
    (data extra_data : List ℕ) : Except LogError Entry :=
  if data.length < 15 then .error (.Parse "reading certificate length!")
  else
    match certParse (readBuffer data 15 (beBytes (sliceAt data 12 3))) with
    | none => .error (.Parse "parsing certificate!")
    | some certificate =>
        if extra_data.length < 3 then
          .error (.Parse "reading certificate chain length!")
        else
          match read_chain certParse extra_data 3 (beBytes (sliceAt extra_data 0 3)) [] with
          | .error e => .error e
          | .ok chain => .ok ⟨timestamp, certificate, chain⟩

/-- The `leaf_entry_variant = 1` arm of `parse_log_entry`
(`src/endpoint.rs` lines 164-211, the `PrecertChainEntry` case).  The cursor
first skips the 32-byte issuer-key hash, so the `u24` certificate length sits
at bytes 44-46 of `data`; in `extra_data` a `u24` leaf length plus that many
bytes are skipped, then the `u24` total chain length is read at position
`3 + plen` and the loop bound is `(3 + plen) + total` (position taken before
the length read), the loop starting at `(3 + plen) + 3`. -/
def parse_precert_entry (certParse : List ℕ → Option Certificate) (timestamp : ℤ)
    (data extra_data : List ℕ) : Except LogError Entry :=
  if data.length < 47 then .error (.Parse "reading certificate length!")
  else
    match certParse (readBuffer data 47 (beBytes (sliceAt data 44 3))) with
    | none => .error (.Parse "parsing certificate!")
    | some certificate =>
        if extra_data.length < 3 then
          .error (.Parse "reading certificate length!")
        else
          if extra_data.length < (3 + beBytes (sliceAt extra_data 0 3)) + 3 then
            .error (.Parse "reading certificate chain length!")
          else
            match read_chain certParse extra_data
              ((3 + beBytes (sliceAt extra_data 0 3)) + 3)
              ((3 + beBytes (sliceAt extra_data 0 3)) +
                beBytes (sliceAt extra_data (3 + beBytes (sliceAt extra_data 0 3)) 3)) [] with
            | .error e => .error e
            | .ok chain => .ok ⟨timestamp, certificate, chain⟩

/-- `parse_log_entry` from `src/endpoint.rs` (lines 97-221).

`certParse` abstracts `certain_certificate::Certificate::parse`;
`fromTsOpt` abstracts `chrono::NaiveDateTime::from_timestamp_opt(secs, 0)`,
returning the instant (as seconds) when `secs` is representable and `none`
otherwise — the source then falls back to `unwrap_or_default()`, i.e. the Unix
epoch (`0`).

The reader positions mirror the source: version at byte 0, leaf variant at
byte 1, the big-endian `u64` millisecond timestamp at bytes 2-9 (the source
computes the timestamp right after reading the raw `u64`, before
discriminating the version; the value is threaded into both arms), and the
`u16` entry variant at bytes 10-11.  The four header reads use `read_exact`
semantics and fail with the source's `Parse` reasons when `data` is too
short; the version / leaf / entry discrimination happens only afterwards,
exactly as in the source. -/
def parse_log_entry (certParse : List ℕ → Option Certificate)
    (fromTsOpt : ℤ → Option ℤ) (data extra_data : List ℕ) :
    Except LogError Entry :=
  if data.length < 1 then .error (.Parse "reading leaf version!")
  else if data.length < 2 then .error (.Parse "reading leaf variant!")
  else if data.length < 10 then .error (.Parse "reading leaf timestamp!")
  else if data.length < 12 then .error (.Parse "reading leaf entry variant!")
  else
    if beBytes (sliceAt data 0 1) = 0 then
      if beBytes (sliceAt data 1 1) = 0 then
        if beBytes (sliceAt data 10 2) = 0 then
          parse_x509_entry certParse
            ((fromTsOpt ((beBytes (sliceAt data 2 8) / 1000 : ℕ) : ℤ)).getD 0)
            data extra_data
        else if beBytes (sliceAt data 10 2) = 1 then
          parse_precert_entry certParse
            ((fromTsOpt ((beBytes (sliceAt data 2 8) / 1000 : ℕ) : ℤ)).getD 0)
            data extra_data
        else .error (.UnsupportedEntry (beBytes (sliceAt data 10 2)))
      else .error (.UnsupportedLeaf (beBytes (sliceAt data 1 1)))
    else .error (.UnsupportedVersion (beBytes (sliceAt data 0 1)))

/-- `read_log_entries` from `src/endpoint.rs` (lines 230-251), on entries whose
`leaf_input` / `extra_data` fields have already been base64-decoded (base64 is
an external collaborator).  Entries are parsed in order; the first `LogError`
aborts the whole response. -/
def read_log_entries (certParse : List ℕ → Option Certificate)
    (fromTsOpt : ℤ → Option ℤ) :
    List (List ℕ × List ℕ) → Except LogError (List Entry)
  | [] => .ok []
  | (leaf_input, extra_data) :: rest =>
    match parse_log_entry certParse fromTsOpt leaf_input extra_data with
    | .error e => .error e
    | .ok entry =>
      match read_log_entries certParse fromTsOpt rest with
      | .error e => .error e
      | .ok entries => .ok (entry :: entries)

/-! ## Endpoint client (`src/endpoint.rs` lines 253-359) -/

/-- The tri-valued `Response<T>` of `src/endpoint.rs`.  Durations are modelled
as whole seconds (`Duration::from_secs`). -/
inductive Response (α : Type) where
  | Unhandled (code : ℕ)
  | Limited (d : Option ℕ)
  | Data (payload : α)
deriving DecidableEq, Repr

/-- `get_rate_timeout` from `src/endpoint.rs` (lines 261-276).

`parse_secs` abstracts `str::parse::<u64>()` (it succeeds exactly on decimal
representations of values below `2 ^ 64`); `parse_rfc2822_day` abstracts
`DateTime::parse_from_rfc2822(..)` followed by `.date_naive()`, returning the
parsed *calendar day* as a day number; `today` is `Utc::now().date_naive()` as
the same day number.  A header value whose `to_str()` fails behaves like an
unparseable one and is covered by the `none` branches of the oracles.

The source computes `(date.date_naive() - Utc::now().date_naive())
.num_seconds() as u64`: the difference of the two *dates* is a whole number of
days, its `num_seconds()` is `days * 86400` as an `i64`, and the `as u64` cast
wraps negative values around `2 ^ 64` instead of clamping them. -/
def get_rate_timeout (parse_secs : String → Option ℕ)
    (parse_rfc2822_day : String → Option ℤ) (today : ℤ)
    (retry_after : Option String) : Option ℕ :=
  match retry_after with
  | none => none
  | some value =>
    match parse_secs value with
    | some seconds => some seconds
    | none =>
      match parse_rfc2822_day value with
      | some day => some (Int.toNat (((day - today) * 86400) % ((2 : ℤ) ^ 64)))
      | none => none

/-- The status dispatch of `get_log_size` (`src/endpoint.rs` lines 278-317),
as a function of the response status `code`, the already-computed
`get_rate_timeout` result `retry_after`, and the result `body` of
`read_log_size` on the response text (JSON decoding of `tree_size` is
external; `body` is its outcome).  The match arms are in source order:
`200`, `429`, then `401..=499` / `500..=599` / catch-all. -/
def get_log_size_outcome (code : ℕ) (retry_after : Option ℕ)
    (body : Except LogError ℕ) : Except StreamError (Response ℕ) :=
  if code = 200 then
    match body with
    | .error e => .error (.Log e)
    | .ok tree_size => .ok (.Data tree_size)
  else if code = 429 then .ok (.Limited retry_after)
  else if 401 ≤ code ∧ code ≤ 499 then .error (.Response (.Client code))
  else if 500 ≤ code ∧ code ≤ 599 then .error (.Response (.Server code))
  else .ok (.Unhandled code)

/-- The status dispatch of `get_log_entries` (`src/endpoint.rs` lines
319-359), duplicated in the source with the same arms as `get_log_size`;
`body` is the outcome of `read_log_entries` on the response text. -/
def get_log_entries_outcome (code : ℕ) (retry_after : Option ℕ)
    (body : Except LogError (List Entry)) :
    Except StreamError (Response (List Entry)) :=
  if code = 200 then
    match body with
    | .error e => .error (.Log e)
    | .ok entries => .ok (.Data entries)
  else if code = 429 then .ok (.Limited retry_after)
  else if 401 ≤ code ∧ code ≤ 499 then .error (.Response (.Client code))
  else if 500 ≤ code ∧ code ≤ 599 then .error (.Response (.Server code))
  else .ok (.Unhandled code)

/-- The payload-free shape of an endpoint outcome, used to compare the two
dispatches against the spec's status table. -/
inductive StatusShape where
  | data
  | limited
  | unhandled (code : ℕ)
  | client (code : ℕ)
  | server (code : ℕ)
  | otherError
deriving DecidableEq, Repr

/-- Forgets the payload of an endpoint outcome. -/
def outcome_shape {α : Type} : Except StreamError (Response α) → StatusShape
  | .ok (.Data _) => .data
  | .ok (.Limited _) => .limited
  | .ok (.Unhandled c) => .unhandled c
  | .error (.Response (.Client c)) => .client c
  | .error (.Response (.Server c)) => .server c
  | .error _ => .otherError

/-- Modelled from the spec: the status table of section 4.B, rows in order
(`200`, `429`, `400`, `401-499`, `500-599`, anything else). -/
def spec_status_shape (code : ℕ) : StatusShape :=
  if code = 200 then .data
  else if code = 429 then .limited
  else if code = 400 then .unhandled 400
  else if 401 ≤ code ∧ code ≤ 499 then .client code
  else if 500 ≤ code ∧ code ≤ 599 then .server code
  else .unhandled code

/-! ## Certificate post-processing (`src/certificate.rs`) -/

/-- `CertificateValidity::from_timestamps` from `src/certificate.rs`
(lines 44-51): `begin` is `begin.min(end)`, `end` is `end.max(begin)`
(both routed through `from_timestamp(_, 0)`, i.e. kept at second
resolution). -/
def CertificateValidity.from_timestamps (begin end_ : ℤ) : CertificateValidity :=
  ⟨min begin end_, max end_ begin⟩

/-- The `x509_parser` general-name forms that `parse_certificate` inspects;
every other form falls into `OtherName` (the source's `_ => None` arm). -/
inductive GeneralName where
  | DirectoryName (s : String)
  | RFC822Name (s : String)
  | IPAddress (octets : List ℕ)
  | DNSName (s : String)
  | URI (s : String)
  | OtherName
deriving DecidableEq, Repr

/-- The subject-alternate-name construction of `parse_certificate`
(`src/certificate.rs` lines 226-273): a first `filter_map` renders each
general name (IP addresses of length 4 or 16 through the standard library's
`IpAddr` rendering, abstracted as `renderIp`; any other length returns `None`
from the closure and is dropped), then a second `filter_map` drops every
alternate name whose string form equals the subject common name. -/
def parse_subject_alternate (renderIp : List ℕ → String)
    (general_names : List GeneralName) (subject_name : Option String) :
    List CertificateAlternateName :=
  (general_names.filterMap fun name =>
    match name with
    | .DirectoryName n => some (.Directory n)
    | .RFC822Name n => some (.Email n)
    | .IPAddress octets =>
      if octets.length = 4 then some (.Address (renderIp octets))
      else if octets.length = 16 then some (.Address (renderIp octets))
      else none
    | .DNSName n => some (.Hostname n)
    | .URI n => some (.Uri n)
    | .OtherName => none
  ).filterMap fun alternate =>
    match subject_name with
    | some subject => if alternate.as_str = subject then none else some alternate
    | none => some alternate

/-! ## Batch pipeline (`stream`, `src/lib.rs` lines 109-237)

The pipeline is embedded in two pieces, both polymorphic in the entry type
(the Rust code never inspects an `Entry` inside the pipeline):

* `batch_task` is the body of the `tokio::spawn`ed task of one batch
  (lines 172-225): it repeatedly calls `get_log_entries` and stitches short
  reads until exactly `batch` entries have been collected.  The server is a
  function of the call number and the requested `(start, count)`; sleeps have
  no denotation, and a `fuel` bound makes the loop a total function — `none`
  means the task has not finished within `fuel` calls.

* `run_pipeline` is the `futures::stream::iter(..).map(..).buffered(workers)`
  consumer (lines 166-234).  `buffered` holds up to `workers` spawned tasks
  and yields their results in submission order, however the tasks happen to
  finish; an explicit event trace (spawn events and out-of-order completion
  events) drives a reorder machine, and the consumer `while let` loop feeds
  each yielded batch to the handler, stopping when the handler returns
  `false` (`Ok(())`) or a task result is an error. -/

/-- `position = index.unwrap_or(size).min(size)` (`src/lib.rs` line 164). -/
def effective_position (index : Option ℕ) (size : ℕ) : ℕ :=
  min (index.getD size) size

/-- The spawned task body of `stream` (`src/lib.rs` lines 172-225).
`server calls start count` is the outcome of the `calls`-th
`get_log_entries(client, url, start, count)` call this task makes.  The match
arms mirror the source: an error returns it, non-empty data is appended and
the loop continues while still short of `batch`, empty data and the
`Limited(_)` / `Unhandled(400)` arms sleep and retry, every other outcome
retries immediately. -/
def batch_task {α : Type} (server : ℕ → ℕ → ℕ → Except StreamError (Response (List α)))
    (batch s : ℕ) : ℕ → ℕ → List α → Option (Except StreamError (List α))
  | 0, _, _ => none
  | fuel + 1, calls, collection =>
    let start := s + collection.length
    let count := batch - collection.length
    match server calls start count with
    | .error e => some (.error e)
    | .ok (.Data entries) =>
      if entries.isEmpty then batch_task server batch s fuel (calls + 1) collection
      else
        let collection := collection ++ entries
        if collection.length < batch then batch_task server batch s fuel (calls + 1) collection
        else some (.ok collection)
    | .ok (.Limited (some _)) => batch_task server batch s fuel (calls + 1) collection
    | .ok (.Limited none) => batch_task server batch s fuel (calls + 1) collection
    | .ok (.Unhandled _) => batch_task server batch s fuel (calls + 1) collection

/-- Decidable equality for `Except`, required by the guards below. -/
instance {ε α : Type} [DecidableEq ε] [DecidableEq α] : DecidableEq (Except ε α) :=
  fun a b =>
    match a, b with
    | .ok x, .ok y =>
      if h : x = y then .isTrue (by rw [h]) else .isFalse (by simp [h])
    | .error x, .error y =>
      if h : x = y then .isTrue (by rw [h]) else .isFalse (by simp [h])
    | .ok _, .error _ => .isFalse (by simp)
    | .error _, .ok _ => .isFalse (by simp)

/-- One scheduler event of the `buffered(workers)` combinator: either the
combinator polls the underlying stream and spawns the next batch task, or an
in-flight task (identified by its submission number) completes. -/
inductive PipeEvent where
  | spawn
  | complete (k : ℕ)
deriving DecidableEq, Repr

/-- The observable state of the pipeline: how many tasks have been spawned,
which have completed, how many results the consumer has taken (always in
submission order), every entry the handler has been invoked on (in order), and
whether `stream` has returned (`some (.ok ())` for a handler stop, `some
(.error e)` for a propagated error). -/
structure PipeState (α : Type) where
  spawned : ℕ
  completed : Finset ℕ
  delivered : ℕ
  handled : List α
  halted : Option (Except StreamError Unit)

/-- The `for entry in .. { if handler(entry) { continue } else { return Ok(()) } }`
loop over one batch: returns the entries the handler was invoked on (in
order, including the one that answered `false`) and whether to continue. -/
def consume_entries {α : Type} (handler : α → Bool) : List α → List α × Bool
  | [] => ([], true)
  | e :: rest =>
    if handler e then
      let r := consume_entries handler rest
      (e :: r.1, r.2)
    else ([e], false)

/-- Feeding one yielded task result to the consumer loop: an error makes
`stream` return it; otherwise the batch is iterated through the handler. -/
def consume_result {α : Type} (handler : α → Bool) (st : PipeState α)
    (r : Except StreamError (List α)) : PipeState α :=
  match r with
  | .error e => { st with halted := some (.error e) }
  | .ok entries =>
    let hc := consume_entries handler entries
    { st with
        handled := st.handled ++ hc.1,
        halted := if hc.2 then st.halted else some (.ok ()) }

/-- The in-order yield loop of `buffered`: while the next submitted task has
completed and `stream` has not returned, hand its result to the consumer.
`fuel` only bounds the recursion; `st.spawned` always suffices. -/
def drain_loop {α : Type} (results : ℕ → Except StreamError (List α))
    (handler : α → Bool) : ℕ → PipeState α → PipeState α
  | 0, st => st
  | fuel + 1, st =>
    if st.halted = none ∧ st.delivered ∈ st.completed then
      drain_loop results handler fuel
        (consume_result handler { st with delivered := st.delivered + 1 }
          (results st.delivered))
    else st

/-- One scheduler event.  `buffered(workers)` spawns a new task only while it
holds fewer than `workers` submitted-but-not-yet-yielded tasks, and nothing
happens once `stream` has returned.  A completion marks a spawned, not yet
completed task as finished and then lets the consumer drain every result that
is now available in submission order.  `results k` is the result task `k`
eventually produces. -/
def pipe_step {α : Type} (workers : ℕ) (results : ℕ → Except StreamError (List α))
    (handler : α → Bool) (st : PipeState α) : PipeEvent → PipeState α
  | .spawn =>
    if st.halted = none ∧ st.spawned - st.delivered < workers then
      { st with spawned := st.spawned + 1 }
    else st
  | .complete k =>
    if st.halted = none ∧ k < st.spawned ∧ k ∉ st.completed then
      drain_loop results handler st.spawned { st with completed := insert k st.completed }
    else st

/-- Running the pipeline over a whole scheduler trace, from the initial state
(nothing spawned, nothing delivered, handler never invoked, still running). -/
def run_pipeline {α : Type} (workers : ℕ) (results : ℕ → Except StreamError (List α))
    (handler : α → Bool) (events : List PipeEvent) : PipeState α :=
  events.foldl (pipe_step workers results handler) ⟨0, ∅, 0, [], none⟩

/-! ## Claim C8: validity normalization -/

/-- C8.  For all integer inputs `a` and `b`,
`CertificateValidity::from_timestamps(a, b)` produces `begin = min(a, b)` and
`end = max(a, b)`, so `begin <= end` and `end - begin = |a - b|`. -/
theorem from_timestamps_normalizes (a b : ℤ) :
    (CertificateValidity.from_timestamps a b).begin = min a b ∧
    (CertificateValidity.from_timestamps a b).end_ = max a b ∧
    (CertificateValidity.from_timestamps a b).begin ≤
      (CertificateValidity.from_timestamps a b).end_ ∧
    (CertificateValidity.from_timestamps a b).end_ -
      (CertificateValidity.from_timestamps a b).begin = |a - b| := by
  refine ⟨rfl, max_comm b a, ?_, ?_⟩
  · exact le_trans (min_le_left a b) (le_max_right b a)
  · show max b a - min a b = |a - b|
    rcases le_total a b with h | h
    · rw [max_eq_left h, min_eq_left h, abs_of_nonpos (by omega)]; omega
    · rw [max_eq_right h, min_eq_right h, abs_of_nonneg (by omega)]

/-! ## Claim C6: effective start position -/

/-- C6.  The effective start position is
`min(config.index.unwrap_or(tree_size), tree_size)`: an absent index starts at
the current tree size, and a present index greater than the tree size is
clamped to the tree size. -/
theorem effective_position_clamps (size i : ℕ) :
    effective_position none size = size ∧
    effective_position (some i) size = min i size ∧
    (size ≤ i → effective_position (some i) size = size) ∧
    (i ≤ size → effective_position (some i) size = i) := by
  refine ⟨?_, rfl, fun h => ?_, fun h => ?_⟩
  · simp [effective_position]
  · simp [effective_position, min_eq_right h]
  · simp [effective_position, min_eq_left h]

/-- Witness for C6 at concrete inputs: an index of 9 against tree size 5 is
clamped to 5, an index of 3 against tree size 5 is kept. -/
theorem effective_position_clamps_witness :
    effective_position (some 9) 5 = 5 ∧ effective_position (some 3) 5 = 3 :=
  ⟨(effective_position_clamps 5 9).2.2.1 (by decide),
   (effective_position_clamps 5 3).2.2.2 (by decide)⟩

/-! ## Claim C4: status mapping of both endpoint calls -/

/-- C4.  `get_log_size` and `get_log_entries` map the HTTP status to the same
tri-valued outcome, matching the spec's table read in row order: 200 yields
`Data(payload)`, 429 yields `Limited(retry_after)`, 400 yields
`Unhandled(400)`, the remaining 401-499 yield `ResponseError::Client(code)`,
500-599 yield `ResponseError::Server(code)`, and anything else yields
`Unhandled(code)`. -/
theorem both_endpoints_status_mapping (code : ℕ) (retry : Option ℕ) (n : ℕ)
    (es : List Entry) :
    outcome_shape (get_log_size_outcome code retry (.ok n)) = spec_status_shape code ∧
    outcome_shape (get_log_entries_outcome code retry (.ok es)) = spec_status_shape code ∧
    get_log_size_outcome 200 retry (.ok n) = .ok (.Data n) ∧
    get_log_entries_outcome 200 retry (.ok es) = .ok (.Data es) ∧
    get_log_size_outcome 429 retry (.ok n) = .ok (.Limited retry) ∧
    get_log_entries_outcome 429 retry (.ok es) = .ok (.Limited retry) := by
  refine ⟨?_, ?_, by simp [get_log_size_outcome], by simp [get_log_entries_outcome],
    by simp [get_log_size_outcome], by simp [get_log_entries_outcome]⟩
  · unfold get_log_size_outcome spec_status_shape
    split_ifs <;> simp_all [outcome_shape]
  · unfold get_log_entries_outcome spec_status_shape
    split_ifs <;> simp_all [outcome_shape]

/-! ## Claim C5: Retry-After handling -/

/-- C5.  Evaluating `get_rate_timeout` on the branches the claim describes.
The integer-seconds branch and the absent / unparseable branches behave as
claimed, but an RFC-2822 date in the past does *not* yield a zero delay: the
source computes the difference of the two calendar *dates*, takes its
`num_seconds()` (a negative `i64` for a past date) and casts it `as u64`,
which wraps around `2 ^ 64`.  A date one day before "now" therefore produces
a delay of `2 ^ 64 - 86400` seconds instead of `0`. -/
theorem get_rate_timeout_wraps_in_past :
    get_rate_timeout (fun _ => none) (fun _ => some 0) 1
      (some "Thu, 01 Jan 1970 00:00:00 +0000") = some (2 ^ 64 - 86400) ∧
    get_rate_timeout (fun _ => none) (fun _ => some 0) 1
      (some "Thu, 01 Jan 1970 00:00:00 +0000") ≠ some 0 ∧
    get_rate_timeout (fun s => if s = "2" then some 2 else none) (fun _ => none) 0
      (some "2") = some 2 ∧
    get_rate_timeout (fun _ => none) (fun _ => none) 0 none = none ∧
    get_rate_timeout (fun _ => none) (fun _ => none) 0 (some "garbage") = none := by
  refine ⟨by decide, by decide, rfl, rfl, rfl⟩

/-! ## Claim C9: subject-alternate-name filtering -/

/-- C9.  In the parsed subject alternate names, an IP-address entry of byte
length other than 4 or 16 is dropped silently (the remaining names are
unaffected and the parse does not fail); an IP-address entry of length 4 or
16 is rendered through the standard library and kept unless its string form
equals the subject common name; and every name whose string form equals the
subject common name is absent from the result. -/
theorem subject_alternate_filtering (renderIp : List ℕ → String)
    (names : List GeneralName) (sn : Option String) (cn : String) :
    (∀ o : List ℕ, o.length ≠ 4 → o.length ≠ 16 →
      parse_subject_alternate renderIp (.IPAddress o :: names) sn =
        parse_subject_alternate renderIp names sn) ∧
    (∀ o : List ℕ, o.length = 4 ∨ o.length = 16 →
      parse_subject_alternate renderIp (.IPAddress o :: names) (some cn) =
        (if renderIp o = cn then [] else [.Address (renderIp o)]) ++
          parse_subject_alternate renderIp names (some cn)) ∧
    (∀ a ∈ parse_subject_alternate renderIp names (some cn), a.as_str ≠ cn) := by
  refine ⟨?_, ?_, ?_⟩
  · intro o h4 h16
    simp [parse_subject_alternate, List.filterMap_cons, h4, h16]
  · intro o h
    rcases h with h | h <;> by_cases hcn : renderIp o = cn <;>
      simp [parse_subject_alternate, List.filterMap_cons, h,
        CertificateAlternateName.as_str, hcn]
  · intro a ha
    simp only [parse_subject_alternate, List.mem_filterMap] at ha
    rcases ha with ⟨b, _, hba⟩
    by_cases hc : b.as_str = cn
    · simp [hc] at hba
    · simp [hc] at hba
      subst hba
      exact hc

/-- Witness for C9: a 3-byte IP address is dropped, and a hostname equal to
the common name is dropped, while an unrelated hostname survives. -/
theorem subject_alternate_filtering_witness :
    parse_subject_alternate (fun _ => "10.0.0.1")
        [.IPAddress [1, 2, 3], .DNSName "cn", .DNSName "x"] (some "cn") =
      parse_subject_alternate (fun _ => "10.0.0.1")
        [.DNSName "cn", .DNSName "x"] (some "cn") ∧
    ∀ a ∈ parse_subject_alternate (fun _ => "10.0.0.1")
        [.IPAddress [1, 2, 3], .DNSName "cn", .DNSName "x"] (some "cn"),
      a.as_str ≠ "cn" := by
  constructor
  · exact (subject_alternate_filtering (fun _ => "10.0.0.1")
      [.DNSName "cn", .DNSName "x"] (some "cn") "cn").1 [1, 2, 3]
      (by decide) (by decide)
  · intro a ha
    exact (subject_alternate_filtering (fun _ => "10.0.0.1")
      [.IPAddress [1, 2, 3], .DNSName "cn", .DNSName "x"] (some "cn") "cn").2.2 a ha

/-! ## Claim C2: batch tasks collect exactly `batch` entries -/

/-- A server never hands back more entries than the `count` it was asked for
(short reads of any size are allowed). -/
def short_reads {α : Type} (server : ℕ → ℕ → ℕ → Except StreamError (Response (List α))) : Prop :=
  ∀ i st c es, server i st c = .ok (.Data es) → es.length ≤ c

/-- Invariant form of the exactness argument: starting from any partial
collection not longer than `batch`, a finished task holds exactly `batch`
entries. -/
theorem batch_task_ok_length {α : Type}
    (server : ℕ → ℕ → ℕ → Except StreamError (Response (List α))) (batch s : ℕ)
    (hshort : short_reads server) :
    ∀ fuel calls coll c, coll.length ≤ batch →
      batch_task server batch s fuel calls coll = some (.ok c) →
      c.length = batch := by
  intro fuel
  induction fuel with
  | zero => intro calls coll c _ hr; simp [batch_task] at hr
  | succ n ih =>
    intro calls coll c hlen hr
    rw [batch_task] at hr
    rcases hsrv : server calls (s + coll.length) (batch - coll.length) with e | r
    · rw [hsrv] at hr; simp at hr
    · rcases r with code | d | es
      · rw [hsrv] at hr
        exact ih (calls + 1) coll c hlen hr
      · rcases d with _ | d <;> rw [hsrv] at hr
        · exact ih (calls + 1) coll c hlen hr
        · exact ih (calls + 1) coll c hlen hr
      · rw [hsrv] at hr
        simp only at hr
        by_cases hemp : es.isEmpty
        · rw [if_pos hemp] at hr
          exact ih (calls + 1) coll c hlen hr
        · rw [if_neg hemp] at hr
          have hes : es.length ≤ batch - coll.length := hshort calls _ _ es hsrv
          by_cases hfull : (coll ++ es).length < batch
          · rw [if_pos hfull] at hr
            exact ih (calls + 1) (coll ++ es) c (le_of_lt hfull) hr
          · rw [if_neg hfull] at hr
            simp only [Option.some.injEq, Except.ok.injEq] at hr
            subst hr
            simp only [List.length_append] at hfull hes ⊢
            omega

/-- C2.  For every batch start `s` and every sequence of server responses in
which each `Data` payload is at most the requested count (short reads of any
sizes, interleaved with empty reads, rate limits and unhandled codes), a
batch task that finishes returns *exactly* `batch` entries: it repeatedly
requests `batch - collected` entries starting at `s + collected` (this is the
definition of `batch_task`) and only stops once the collection is no longer
short. -/
theorem batch_task_exactness {α : Type}
    (server : ℕ → ℕ → ℕ → Except StreamError (Response (List α)))
    (batch s fuel calls : ℕ) (c : List α)
    (hshort : short_reads server)
    (hrun : batch_task server batch s fuel calls [] = some (.ok c)) :
    c.length = batch :=
  batch_task_ok_length server batch s hshort fuel calls [] c (by simp) hrun

/-- A server delivering at most one entry per call, never more than asked. -/
def one_at_a_time_server : ℕ → ℕ → ℕ → Except StreamError (Response (List ℕ)) :=
  fun _ st c => .ok (.Data ((List.range' st c).take 1))

/-- Witness for C2: against a server that delivers at most one entry per
short read, a task for a batch of 3 starting at 0 finishes with exactly 3
entries. -/
theorem batch_task_exactness_witness :
    batch_task one_at_a_time_server 3 0 5 0 [] = some (.ok [0, 1, 2]) ∧
    ([0, 1, 2] : List ℕ).length = 3 := by
  constructor
  · decide
  · exact batch_task_exactness one_at_a_time_server 3 0 5 0 [0, 1, 2]
      (by
        intro i st c es h
        simp only [one_at_a_time_server, Except.ok.injEq, Response.Data.injEq] at h
        subst h
        simp only [List.length_take, List.length_range']
        omega)
      (by decide)

/-! ## Claim C1: ordered delivery under arbitrary completion orders -/

/-- Taking a prefix of a `range'` block yields a shorter `range'` block. -/
theorem range'_take : ∀ (n s m : ℕ), (List.range' s n).take m = List.range' s (min m n)
  | 0, _, m => by simp
  | _ + 1, _, 0 => by simp
  | n + 1, s, m + 1 => by
    rw [List.range'_succ, List.take_succ_cons, range'_take n (s + 1) m,
      show min (m + 1) (n + 1) = min m n + 1 by omega, List.range'_succ]

/-- The handler loop over one batch consumes a prefix of the batch, the whole
batch exactly when it never answered `false`. -/
theorem consume_entries_take {α : Type} (handler : α → Bool) :
    ∀ es : List α, ∃ m, m ≤ es.length ∧
      (consume_entries handler es).1 = es.take m ∧
      ((consume_entries handler es).2 = true → m = es.length)
  | [] => ⟨0, by simp [consume_entries]⟩
  | e :: rest => by
    by_cases h : handler e
    · obtain ⟨m, hm, h1, h2⟩ := consume_entries_take handler rest
      refine ⟨m + 1, by simpa using hm, ?_, ?_⟩
      · simp [consume_entries, h, h1]
      · simp only [consume_entries, h, if_true, List.length_cons]
        intro hh
        rw [h2 hh]
    · exact ⟨1, by simp, by simp [consume_entries, h], by simp [consume_entries, h]⟩

/-- A handler that always answers `true` consumes every batch entirely. -/
theorem consume_entries_all_true {α : Type} (handler : α → Bool)
    (hh : ∀ x, handler x = true) :
    ∀ es : List α, consume_entries handler es = (es, true)
  | [] => rfl
  | e :: rest => by
    simp [consume_entries, hh e, consume_entries_all_true handler hh rest]

/-- The results the tasks of a canonically-indexed log produce: task `k`
covers exactly the index block `[pos + k * batch, pos + (k + 1) * batch)`. -/
def ordered_results (pos batch : ℕ) (results : ℕ → Except StreamError (List ℕ)) : Prop :=
  ∀ k es, results k = .ok es → es = List.range' (pos + k * batch) batch

/-- The inductive invariant of the reorder pipeline: results are taken in
submission order, at most `workers` tasks are beyond the consumer, and the
handled entries always form an initial index block. -/
structure PipeInvariant (pos batch workers : ℕ) (st : PipeState ℕ) : Prop where
  delivered_le : st.delivered ≤ st.spawned
  completed_lt : ∀ k ∈ st.completed, k < st.spawned
  delivered_completed : ∀ k, k < st.delivered → k ∈ st.completed
  spawn_bound : st.spawned ≤ st.delivered + workers
  handled_range : ∃ n, st.handled = List.range' pos n ∧
    (st.halted = none → n = st.delivered * batch)

/-- Draining preserves the pipeline invariant. -/
theorem drain_loop_invariant (pos batch workers : ℕ)
    (results : ℕ → Except StreamError (List ℕ)) (handler : ℕ → Bool)
    (hres : ordered_results pos batch results) :
    ∀ fuel (st : PipeState ℕ), PipeInvariant pos batch workers st →
      PipeInvariant pos batch workers (drain_loop results handler fuel st) := by
  intro fuel
  induction fuel with
  | zero => intro st h; exact h
  | succ n ih =>
    intro st h
    rw [drain_loop]
    split
    case isFalse hg => exact h
    case isTrue hg =>
      apply ih
      obtain ⟨hnone, hmem⟩ := hg
      obtain ⟨m, hm, hmn⟩ := h.handled_range
      have hmv : m = st.delivered * batch := hmn hnone
      have hdlt : st.delivered < st.spawned := h.completed_lt _ hmem
      rcases hr : results st.delivered with e | es
      · refine ⟨by simpa [consume_result, hr] using hdlt, ?_, ?_, ?_, ?_⟩
        · simpa [consume_result, hr] using h.completed_lt
        · intro k hk
          simp only [consume_result, hr] at hk ⊢
          rcases Nat.lt_succ_iff_lt_or_eq.mp hk with hk | hk
          · exact h.delivered_completed k hk
          · subst hk; exact hmem
        · have := h.spawn_bound
          simp only [consume_result, hr]
          omega
        · exact ⟨m, by simp [consume_result, hr, hm], by simp [consume_result, hr]⟩
      · have hes : es = List.range' (pos + st.delivered * batch) batch := by
          have := hres st.delivered es hr
          simpa [Nat.mul_comm] using this
        obtain ⟨q, hq, h1, h2⟩ := consume_entries_take handler es
        refine ⟨?_, ?_, ?_, ?_, ?_⟩
        · simpa [consume_result, hr] using hdlt
        · simpa [consume_result, hr] using h.completed_lt
        · intro k hk
          simp only [consume_result, hr] at hk ⊢
          rcases Nat.lt_succ_iff_lt_or_eq.mp hk with hk | hk
          · exact h.delivered_completed k hk
          · subst hk; exact hmem
        · have := h.spawn_bound
          simp only [consume_result, hr]
          omega
        · refine ⟨st.delivered * batch + min q batch, ?_, ?_⟩
          · have hce : (consume_entries handler es).1 =
                List.range' (pos + st.delivered * batch) (min q batch) := by
              rw [h1, hes, range'_take]
            simp only [consume_result, hr]
            rw [hm, hmv, hce, List.range'_append_1,
              Nat.add_comm (min q batch) (st.delivered * batch)]
          · simp only [consume_result, hr]
            by_cases hc : (consume_entries handler es).2 = true
            · intro _
              have hq' : q = es.length := h2 hc
              have hlen : es.length = batch := by rw [hes]; simp
              rw [hq', hlen, min_self, Nat.succ_mul]
            · intro hnone'
              rw [if_neg hc] at hnone'
              simp at hnone'

/-- One scheduler event preserves the pipeline invariant. -/
theorem pipe_step_invariant (pos batch workers : ℕ)
    (results : ℕ → Except StreamError (List ℕ)) (handler : ℕ → Bool)
    (hres : ordered_results pos batch results) (st : PipeState ℕ) (ev : PipeEvent)
    (h : PipeInvariant pos batch workers st) :
    PipeInvariant pos batch workers (pipe_step workers results handler st ev) := by
  cases ev with
  | spawn =>
    simp only [pipe_step]
    by_cases hg : st.halted = none ∧ st.spawned - st.delivered < workers
    · rw [if_pos hg]
      have hd := h.delivered_le
      have hs := h.spawn_bound
      refine ⟨by simp; omega, ?_, ?_, by simp; omega, ?_⟩
      · intro k hk
        exact Nat.lt_succ_of_lt (h.completed_lt k hk)
      · exact h.delivered_completed
      · obtain ⟨m, hm, hmn⟩ := h.handled_range
        exact ⟨m, hm, hmn⟩
    · rw [if_neg hg]; exact h
  | complete k =>
    simp only [pipe_step]
    by_cases hg : st.halted = none ∧ k < st.spawned ∧ k ∉ st.completed
    · rw [if_pos hg]
      apply drain_loop_invariant pos batch workers results handler hres
      refine ⟨h.delivered_le, ?_, ?_, h.spawn_bound, h.handled_range⟩
      · intro j hj
        simp only [Finset.mem_insert] at hj
        rcases hj with hj | hj
        · subst hj; exact hg.2.1
        · exact h.completed_lt j hj
      · intro j hj
        exact Finset.mem_insert_of_mem (h.delivered_completed j hj)
    · rw [if_neg hg]; exact h

/-- The pipeline invariant holds after any scheduler trace. -/
theorem run_pipeline_invariant (pos batch workers : ℕ)
    (results : ℕ → Except StreamError (List ℕ)) (handler : ℕ → Bool)
    (hres : ordered_results pos batch results) (events : List PipeEvent) :
    PipeInvariant pos batch workers (run_pipeline workers results handler events) := by
  have hstep : ∀ (evs : List PipeEvent) (st : PipeState ℕ),
      PipeInvariant pos batch workers st →
      PipeInvariant pos batch workers (evs.foldl (pipe_step workers results handler) st) := by
    intro evs
    induction evs with
    | nil => intro st h; exact h
    | cons e rest ih =>
      intro st h
      exact ih _ (pipe_step_invariant pos batch workers results handler hres st e h)
  refine hstep events _ ⟨by simp, ?_, ?_, by simp, ⟨0, rfl, fun _ => by simp⟩⟩
  · intro k hk; simp at hk
  · intro k hk; simp at hk

/-- A finished task over a canonically-indexed log returns exactly its index
block `[s, s + batch)`. -/
theorem batch_task_ok_range
    (server : ℕ → ℕ → ℕ → Except StreamError (Response (List ℕ))) (batch s : ℕ)
    (hshort : short_reads server)
    (hcanon : ∀ i st c es, server i st c = .ok (.Data es) → es = List.range' st es.length) :
    ∀ fuel calls coll c, coll = List.range' s coll.length → coll.length ≤ batch →
      batch_task server batch s fuel calls coll = some (.ok c) →
      c = List.range' s batch := by
  intro fuel
  induction fuel with
  | zero => intro calls coll c _ _ hr; simp [batch_task] at hr
  | succ n ih =>
    intro calls coll c hcoll hlen hr
    rw [batch_task] at hr
    rcases hsrv : server calls (s + coll.length) (batch - coll.length) with e | r
    · rw [hsrv] at hr; simp at hr
    · rcases r with code | d | es
      · rw [hsrv] at hr
        exact ih (calls + 1) coll c hcoll hlen hr
      · rcases d with _ | d <;> rw [hsrv] at hr
        · exact ih (calls + 1) coll c hcoll hlen hr
        · exact ih (calls + 1) coll c hcoll hlen hr
      · rw [hsrv] at hr
        simp only at hr
        by_cases hemp : es.isEmpty
        · rw [if_pos hemp] at hr
          exact ih (calls + 1) coll c hcoll hlen hr
        · rw [if_neg hemp] at hr
          have hes : es.length ≤ batch - coll.length := hshort calls _ _ es hsrv
          have hesr : es = List.range' (s + coll.length) es.length :=
            hcanon calls _ _ es hsrv
          have happ : coll ++ es = List.range' s (coll.length + es.length) :=
            calc coll ++ es
                = List.range' s coll.length ++ List.range' (s + coll.length) es.length := by
                  rw [← hcoll, ← hesr]
              _ = List.range' s (coll.length + es.length) := by
                  rw [List.range'_append_1, Nat.add_comm]
          by_cases hfull : (coll ++ es).length < batch
          · rw [if_pos hfull] at hr
            refine ih (calls + 1) (coll ++ es) c ?_ (le_of_lt hfull) hr
            rw [happ]; simp
          · rw [if_neg hfull] at hr
            simp only [Option.some.injEq, Except.ok.injEq] at hr
            subst hr
            have : coll.length + es.length = batch := by
              simp only [List.length_append] at hfull
              omega
            rw [happ, this]

/-- C1.  For every configuration, every family of server behaviours that
serves consecutive log indices with short reads allowed, and every scheduler
trace (spawn / out-of-order completion events), the entries the handler sees
form an initial segment of `range' position`: their log indices are strictly
increasing and start at the effective position, because the pipeline consumes
task results in submission order while keeping at most `workers` tasks beyond
the consumer. -/
theorem stream_delivery_ordered (workers batch size : ℕ) (index : Option ℕ)
    (sched : ℕ → ℕ → ℕ → ℕ → Except StreamError (Response (List ℕ)))
    (fuel : ℕ → ℕ) (results : ℕ → Except StreamError (List ℕ))
    (handler : ℕ → Bool) (events : List PipeEvent)
    (hshort : ∀ k, short_reads (sched k))
    (hcanon : ∀ k i st c es, sched k i st c = .ok (.Data es) →
      es = List.range' st es.length)
    (hrun : ∀ k, batch_task (sched k) batch
      (effective_position index size + k * batch) (fuel k) 0 [] = some (results k)) :
    (∃ n, (run_pipeline workers results handler events).handled =
      List.range' (effective_position index size) n) ∧
    List.Sorted (· < ·) (run_pipeline workers results handler events).handled ∧
    ((run_pipeline workers results handler events).handled = [] ∨
      (run_pipeline workers results handler events).handled.head? =
        some (effective_position index size)) ∧
    (∀ trace : List PipeEvent,
      (run_pipeline workers results handler trace).spawned -
        (run_pipeline workers results handler trace).completed.card ≤ workers) := by
  set pos := effective_position index size with hpos
  have hres : ordered_results pos batch results := by
    intro k es hk
    have h := hrun k
    rw [hk] at h
    exact batch_task_ok_range (sched k) batch (pos + k * batch) (hshort k)
      (hcanon k) (fuel k) 0 [] es (by simp) (by simp) h
  have inv := run_pipeline_invariant pos batch workers results handler hres events
  obtain ⟨n, hn, _⟩ := inv.handled_range
  refine ⟨⟨n, hn⟩, ?_, ?_, ?_⟩
  · rw [hn]
    exact List.pairwise_lt_range' pos n
  · rcases n with _ | n
    · left; simpa using hn
    · right; rw [hn, List.head?_range']; simp
  · intro trace
    have inv' := run_pipeline_invariant pos batch workers results handler hres trace
    have hsub : Finset.range (run_pipeline workers results handler trace).delivered ⊆
        (run_pipeline workers results handler trace).completed := by
      intro k hk
      exact inv'.delivered_completed k (Finset.mem_range.mp hk)
    have hcard := Finset.card_le_card hsub
    rw [Finset.card_range] at hcard
    have := inv'.spawn_bound
    omega

/-- A server that always answers the full request with consecutive indices. -/
def canonical_server : ℕ → ℕ → ℕ → ℕ → Except StreamError (Response (List ℕ)) :=
  fun _ _ st c => .ok (.Data (List.range' st c))

/-- The task results over the canonical server for `position = 3`,
`batch = 2`. -/
def canonical_results : ℕ → Except StreamError (List ℕ) :=
  fun k => .ok (List.range' (3 + k * 2) 2)

/-- Witness for C1 at a concrete configuration (`workers = 2`, `batch = 2`,
`tree_size = 3`, `index = 5` clamped to 3) and a trace whose completions
arrive out of order (task 1 finishes before task 0). -/
theorem stream_delivery_ordered_witness :
    (∃ n, (run_pipeline 2 canonical_results (fun _ => true)
      [.spawn, .spawn, .complete 1, .complete 0]).handled = List.range' 3 n) ∧
    List.Sorted (· < ·) (run_pipeline 2 canonical_results (fun _ => true)
      [.spawn, .spawn, .complete 1, .complete 0]).handled ∧
    ((run_pipeline 2 canonical_results (fun _ => true)
      [.spawn, .spawn, .complete 1, .complete 0]).handled = [] ∨
      (run_pipeline 2 canonical_results (fun _ => true)
        [.spawn, .spawn, .complete 1, .complete 0]).handled.head? =
        some (effective_position (some 5) 3)) ∧
    (∀ trace : List PipeEvent,
      (run_pipeline 2 canonical_results (fun _ => true) trace).spawned -
        (run_pipeline 2 canonical_results (fun _ => true) trace).completed.card ≤ 2) := by
  have h := stream_delivery_ordered 2 2 3 (some 5) canonical_server (fun _ => 1)
    canonical_results (fun _ => true) [.spawn, .spawn, .complete 1, .complete 0]
    (by
      intro k i st c es hsv
      simp only [canonical_server, Except.ok.injEq, Response.Data.injEq] at hsv
      subst hsv
      simp)
    (by
      intro k i st c es hsv
      simp only [canonical_server, Except.ok.injEq, Response.Data.injEq] at hsv
      subst hsv
      simp)
    (by
      intro k
      show batch_task (canonical_server k) 2 (effective_position (some 5) 3 + k * 2) 1 0 []
        = some (canonical_results k)
      have hp : effective_position (some 5) 3 = 3 := by decide
      rw [hp, batch_task]
      simp [canonical_server, canonical_results, List.range'_succ])
  exact ⟨h.1, h.2.1, h.2.2.1, h.2.2.2⟩

/-! ## Claim C3: a malformed entry aborts the stream -/

/-- A full-length leaf whose first byte (the version) is 1 parses to
`UnsupportedVersion(1)`. -/
theorem parse_version_one (cp : List ℕ → Option Certificate) (fts : ℤ → Option ℤ)
    (rest extra : List ℕ) (h : 11 ≤ rest.length) :
    parse_log_entry cp fts (1 :: rest) extra = .error (.UnsupportedVersion 1) := by
  simp only [parse_log_entry, List.length_cons]
  rw [if_neg (by omega), if_neg (by omega), if_neg (by omega), if_neg (by omega)]
  simp [sliceAt, beBytes]

/-- A full-length version-0 leaf whose second byte (the leaf type) is not 0
parses to `UnsupportedLeaf`. -/
theorem parse_leaf_unsupported (cp : List ℕ → Option Certificate) (fts : ℤ → Option ℤ)
    (v : ℕ) (rest extra : List ℕ) (h : 10 ≤ rest.length) (hv : v ≠ 0) :
    parse_log_entry cp fts (0 :: v :: rest) extra = .error (.UnsupportedLeaf v) := by
  simp only [parse_log_entry, List.length_cons]
  rw [if_neg (by omega), if_neg (by omega), if_neg (by omega), if_neg (by omega)]
  simp [sliceAt, beBytes, hv]

/-- A version-0, leaf-type-0 leaf whose big-endian `u16` entry type is neither
0 nor 1 parses to `UnsupportedEntry`. -/
theorem parse_entry_unsupported (cp : List ℕ → Option Certificate) (fts : ℤ → Option ℤ)
    (t1 t2 t3 t4 t5 t6 t7 t8 e1 e2 : ℕ) (rest extra : List ℕ)
    (he0 : beBytes [e1, e2] ≠ 0) (he1 : beBytes [e1, e2] ≠ 1) :
    parse_log_entry cp fts
      (0 :: 0 :: t1 :: t2 :: t3 :: t4 :: t5 :: t6 :: t7 :: t8 :: e1 :: e2 :: rest) extra
      = .error (.UnsupportedEntry (beBytes [e1, e2])) := by
  simp only [parse_log_entry, List.length_cons]
  rw [if_neg (by omega), if_neg (by omega), if_neg (by omega), if_neg (by omega)]
  rw [show sliceAt
      (0 :: 0 :: t1 :: t2 :: t3 :: t4 :: t5 :: t6 :: t7 :: t8 :: e1 :: e2 :: rest) 0 1
      = [0] from rfl]
  rw [show sliceAt
      (0 :: 0 :: t1 :: t2 :: t3 :: t4 :: t5 :: t6 :: t7 :: t8 :: e1 :: e2 :: rest) 1 1
      = [0] from rfl]
  rw [show sliceAt
      (0 :: 0 :: t1 :: t2 :: t3 :: t4 :: t5 :: t6 :: t7 :: t8 :: e1 :: e2 :: rest) 10 2
      = [e1, e2] from rfl]
  rw [show beBytes [0] = 0 from rfl]
  rw [if_pos rfl, if_pos rfl, if_neg he0, if_neg he1]

/-- The first malformed entry of a `get-entries` response aborts the whole
response with its `LogError`. -/
theorem read_log_entries_propagates (cp : List ℕ → Option Certificate)
    (fts : ℤ → Option ℤ) :
    ∀ (pre : List (List ℕ × List ℕ)) (pair : List ℕ × List ℕ)
      (post : List (List ℕ × List ℕ)) (err : LogError),
      (∀ q ∈ pre, ∃ en, parse_log_entry cp fts q.1 q.2 = .ok en) →
      parse_log_entry cp fts pair.1 pair.2 = .error err →
      read_log_entries cp fts (pre ++ pair :: post) = .error err
  | [], pair, post, err, _, herr => by
    obtain ⟨l, e⟩ := pair
    simp only [List.nil_append, read_log_entries]
    rw [herr]
  | q :: pre, pair, post, err, hok, herr => by
    obtain ⟨en, hen⟩ := hok q (by simp)
    obtain ⟨l, e⟩ := q
    simp only [List.cons_append, read_log_entries]
    rw [hen]
    simp only [List.append_eq]
    rw [read_log_entries_propagates cp fts pre pair post err
      (fun r hr => hok r (by simp [hr])) herr]

/-- The inductive invariant of the pipeline when task `j` fails with a
`LogError` and every earlier task succeeds: the handler only ever sees the
entries of the earlier tasks, and once batch `j` is consumed the stream has
returned that very error. -/
structure AbortInvariant {α : Type} (j : ℕ) (err : LogError) (es : ℕ → List α)
    (st : PipeState α) : Prop where
  delivered_le : st.delivered ≤ j + 1
  handled_eq : st.handled = ((List.range (min st.delivered j)).map es).flatten
  halt_none : st.halted = none → st.delivered ≤ j
  halted_cases : st.halted = none ∨ st.halted = some (.error (.Log err))

/-- Draining preserves the abort invariant. -/
theorem drain_loop_abort {α : Type} (j : ℕ) (err : LogError) (es : ℕ → List α)
    (results : ℕ → Except StreamError (List α)) (handler : α → Bool)
    (hh : ∀ x, handler x = true)
    (hok : ∀ k, k < j → results k = .ok (es k))
    (herr : results j = .error (.Log err)) :
    ∀ fuel (st : PipeState α), AbortInvariant j err es st →
      AbortInvariant j err es (drain_loop results handler fuel st) := by
  intro fuel
  induction fuel with
  | zero => exact fun st h => h
  | succ n ih =>
    intro st h
    rw [drain_loop]
    split
    case isFalse => exact h
    case isTrue hg =>
      apply ih
      obtain ⟨hnone, _⟩ := hg
      have hdle : st.delivered ≤ j := h.halt_none hnone
      rcases Nat.lt_or_ge st.delivered j with hlt | hge
      · have hr := hok st.delivered hlt
        have hce := consume_entries_all_true handler hh (es st.delivered)
        refine ⟨?_, ?_, ?_, ?_⟩
        · simp only [consume_result, hr, hce]
          omega
        · simp only [consume_result, hr, hce, if_true]
          rw [h.handled_eq, Nat.min_eq_left hdle, Nat.min_eq_left (by omega : st.delivered + 1 ≤ j),
            List.range_succ]
          simp
        · simp only [consume_result, hr, hce, if_true]
          intro _
          omega
        · simp only [consume_result, hr, hce, if_true]
          left
          exact hnone
      · have hdj : st.delivered = j := le_antisymm hdle hge
        have hr : results st.delivered = .error (.Log err) := by rw [hdj]; exact herr
        refine ⟨?_, ?_, ?_, ?_⟩
        · simp only [consume_result, hr]; omega
        · simp only [consume_result, hr]
          rw [h.handled_eq, hdj, Nat.min_self, Nat.min_eq_right (by omega : j ≤ j + 1)]
        · simp only [consume_result, hr]
          intro hc
          simp at hc
        · simp [consume_result, hr]

/-- One scheduler event preserves the abort invariant. -/
theorem pipe_step_abort {α : Type} (j : ℕ) (err : LogError) (es : ℕ → List α)
    (workers : ℕ) (results : ℕ → Except StreamError (List α)) (handler : α → Bool)
    (hh : ∀ x, handler x = true)
    (hok : ∀ k, k < j → results k = .ok (es k))
    (herr : results j = .error (.Log err))
    (st : PipeState α) (ev : PipeEvent) (h : AbortInvariant j err es st) :
    AbortInvariant j err es (pipe_step workers results handler st ev) := by
  cases ev with
  | spawn =>
    simp only [pipe_step]
    split
    · exact ⟨h.delivered_le, h.handled_eq, h.halt_none, h.halted_cases⟩
    · exact h
  | complete k =>
    simp only [pipe_step]
    split
    · exact drain_loop_abort j err es results handler hh hok herr st.spawned _
        ⟨h.delivered_le, h.handled_eq, h.halt_none, h.halted_cases⟩
    · exact h

/-- The abort invariant holds after any scheduler trace. -/
theorem run_pipeline_abort {α : Type} (j : ℕ) (err : LogError) (es : ℕ → List α)
    (workers : ℕ) (results : ℕ → Except StreamError (List α)) (handler : α → Bool)
    (hh : ∀ x, handler x = true)
    (hok : ∀ k, k < j → results k = .ok (es k))
    (herr : results j = .error (.Log err)) (events : List PipeEvent) :
    AbortInvariant j err es (run_pipeline workers results handler events) := by
  have hstep : ∀ (evs : List PipeEvent) (st : PipeState α),
      AbortInvariant j err es st →
      AbortInvariant j err es (evs.foldl (pipe_step workers results handler) st) := by
    intro evs
    induction evs with
    | nil => exact fun st h => h
    | cons e rest ih =>
      intro st h
      exact ih _ (pipe_step_abort j err es workers results handler hh hok herr st e h)
  refine hstep events _ ⟨by simp, by simp, by simp, Or.inl rfl⟩

/-- C3.  A malformed entry is fatal: a leaf with version 1 yields
`UnsupportedVersion(1)`, a version-0 leaf with nonzero leaf type yields
`UnsupportedLeaf`, an entry type outside 0 and 1 yields `UnsupportedEntry`;
the first malformed entry aborts the whole `get-entries` response with its
`LogError`; and in the pipeline, when task `j` fails with a `LogError` while
the earlier tasks succeed, `stream` returns that error wrapped as
`StreamError::Log` and the handler is invoked on no entry of batch `j` or of
any later batch — it only ever sees the entries of batches before `j`. -/
theorem malformed_entry_aborts :
    (∀ (cp : List ℕ → Option Certificate) (fts : ℤ → Option ℤ)
      (rest extra : List ℕ), 11 ≤ rest.length →
      parse_log_entry cp fts (1 :: rest) extra = .error (.UnsupportedVersion 1)) ∧
    (∀ (cp : List ℕ → Option Certificate) (fts : ℤ → Option ℤ) (v : ℕ)
      (rest extra : List ℕ), 10 ≤ rest.length → v ≠ 0 →
      parse_log_entry cp fts (0 :: v :: rest) extra = .error (.UnsupportedLeaf v)) ∧
    (∀ (cp : List ℕ → Option Certificate) (fts : ℤ → Option ℤ)
      (t1 t2 t3 t4 t5 t6 t7 t8 e1 e2 : ℕ) (rest extra : List ℕ),
      beBytes [e1, e2] ≠ 0 → beBytes [e1, e2] ≠ 1 →
      parse_log_entry cp fts
        (0 :: 0 :: t1 :: t2 :: t3 :: t4 :: t5 :: t6 :: t7 :: t8 :: e1 :: e2 :: rest) extra
        = .error (.UnsupportedEntry (beBytes [e1, e2]))) ∧
    (∀ (cp : List ℕ → Option Certificate) (fts : ℤ → Option ℤ)
      (pre : List (List ℕ × List ℕ)) (pair : List ℕ × List ℕ)
      (post : List (List ℕ × List ℕ)) (err : LogError),
      (∀ q ∈ pre, ∃ en, parse_log_entry cp fts q.1 q.2 = .ok en) →
      parse_log_entry cp fts pair.1 pair.2 = .error err →
      read_log_entries cp fts (pre ++ pair :: post) = .error err) ∧
    (∀ (α : Type) (workers : ℕ) (results : ℕ → Except StreamError (List α))
      (handler : α → Bool) (events : List PipeEvent) (j : ℕ) (err : LogError)
      (es : ℕ → List α),
      (∀ x, handler x = true) →
      (∀ k, k < j → results k = .ok (es k)) →
      results j = .error (.Log err) →
      (run_pipeline workers results handler events).handled =
        ((List.range (min (run_pipeline workers results handler events).delivered j)).map es).flatten ∧
      (j < (run_pipeline workers results handler events).delivered →
        (run_pipeline workers results handler events).halted =
          some (.error (.Log err))) ∧
      (run_pipeline workers results handler events).delivered ≤ j + 1) := by
  refine ⟨parse_version_one, parse_leaf_unsupported, parse_entry_unsupported,
    read_log_entries_propagates, ?_⟩
  intro α workers results handler events j err es hh hok herr
  have inv := run_pipeline_abort j err es workers results handler hh hok herr events
  refine ⟨inv.handled_eq, ?_, inv.delivered_le⟩
  intro hj
  rcases inv.halted_cases with hc | hc
  · exact absurd (inv.halt_none hc) (by omega)
  · exact hc

/-- The results of a stream whose very first task hits a malformed entry. -/
def abort_results : ℕ → Except StreamError (List ℕ) :=
  fun _ => .error (.Log (.UnsupportedVersion 1))

/-- Witness for C3: a concrete version-1 leaf aborts the parse, and a
concrete pipeline whose task 0 carries that error returns it without ever
invoking the handler. -/
theorem malformed_entry_aborts_witness :
    parse_log_entry (fun _ => none) some (1 :: List.replicate 11 0) []
      = .error (.UnsupportedVersion 1) ∧
    ((run_pipeline 1 abort_results (fun _ => true) [.spawn, .complete 0]).handled =
      ((List.range (min (run_pipeline 1 abort_results (fun _ => true)
        [.spawn, .complete 0]).delivered 0)).map (fun _ => ([] : List ℕ))).flatten ∧
     (0 < (run_pipeline 1 abort_results (fun _ => true) [.spawn, .complete 0]).delivered →
      (run_pipeline 1 abort_results (fun _ => true) [.spawn, .complete 0]).halted =
        some (.error (.Log (.UnsupportedVersion 1)))) ∧
     (run_pipeline 1 abort_results (fun _ => true) [.spawn, .complete 0]).delivered ≤ 0 + 1) :=
  ⟨malformed_entry_aborts.1 (fun _ => none) some (List.replicate 11 0) [] (by simp),
   malformed_entry_aborts.2.2.2.2 ℕ 1 abort_results (fun _ => true) [.spawn, .complete 0]
     0 (.UnsupportedVersion 1) (fun _ => []) (fun _ => rfl)
     (fun k hk => absurd hk (Nat.not_lt_zero k)) rfl⟩

/-! ## Claim C7: the wire codec's error taxonomy -/

/-- Every error the chain loop produces is a `Parse` error. -/
theorem read_chain_error_parse (cp : List ℕ → Option Certificate) (data : List ℕ) :
    ∀ (m pos chainEnd : ℕ) (acc : List Certificate) (e : LogError),
      chainEnd - pos ≤ m →
      read_chain cp data pos chainEnd acc = .error e → ∃ r, e = .Parse r := by
  intro m
  induction m with
  | zero =>
    intro pos chainEnd acc e hm h
    rw [read_chain, if_neg (by omega)] at h
    simp at h
  | succ n ih =>
    intro pos chainEnd acc e hm h
    rw [read_chain] at h
    by_cases hlt : pos < chainEnd
    · rw [if_pos hlt] at h
      by_cases hlen : pos + 3 ≤ data.length
      · rw [if_pos hlen] at h
        rcases hcp : cp (readBuffer data (pos + 3) (beBytes (sliceAt data pos 3)))
          with _ | cert
        · rw [hcp] at h
          simp only [Except.error.injEq] at h
          exact ⟨_, h.symm⟩
        · rw [hcp] at h
          exact ih _ _ _ _ (by omega) h
      · rw [if_neg hlen] at h
        simp only [Except.error.injEq] at h
        exact ⟨_, h.symm⟩
    · rw [if_neg hlt] at h
      simp at h

/-- Every error the `X509ChainEntry` arm produces is a `Parse` error; in
particular the truncated-certificate-buffer case surfaces as
`Parse("parsing certificate!")`, never as `BufferRead`. -/
theorem parse_x509_error_parse (cp : List ℕ → Option Certificate) (ts : ℤ)
    (data extra : List ℕ) (e : LogError)
    (h : parse_x509_entry cp ts data extra = .error e) : ∃ r, e = .Parse r := by
  simp only [parse_x509_entry] at h
  split at h
  · simp only [Except.error.injEq] at h
    exact ⟨_, h.symm⟩
  · split at h
    · simp only [Except.error.injEq] at h
      exact ⟨_, h.symm⟩
    · split at h
      · simp only [Except.error.injEq] at h
        exact ⟨_, h.symm⟩
      · split at h
        case _ e' heq =>
          simp only [Except.error.injEq] at h
          subst h
          exact read_chain_error_parse cp extra (beBytes (sliceAt extra 0 3)) 3 _ [] e'
            (by omega) heq
        case _ chain heq => simp at h

/-- Every error the `PrecertChainEntry` arm produces is a `Parse` error. -/
theorem parse_precert_error_parse (cp : List ℕ → Option Certificate) (ts : ℤ)
    (data extra : List ℕ) (e : LogError)
    (h : parse_precert_entry cp ts data extra = .error e) : ∃ r, e = .Parse r := by
  simp only [parse_precert_entry] at h
  split at h
  · simp only [Except.error.injEq] at h
    exact ⟨_, h.symm⟩
  · split at h
    · simp only [Except.error.injEq] at h
      exact ⟨_, h.symm⟩
    · split at h
      · simp only [Except.error.injEq] at h
        exact ⟨_, h.symm⟩
      · split at h
        · simp only [Except.error.injEq] at h
          exact ⟨_, h.symm⟩
        · split at h
          case _ e' heq =>
            simp only [Except.error.injEq] at h
            subst h
            exact read_chain_error_parse cp extra
              ((3 + beBytes (sliceAt extra 0 3)) +
                beBytes (sliceAt extra (3 + beBytes (sliceAt extra 0 3)) 3)) _ _ [] e'
              (by omega) heq
          case _ chain heq => simp at h

/-- Every error `parse_log_entry` produces is among the four variants that
`src/error.rs` declares: the `BufferRead` arms of `src/endpoint.rs` hang off
`Read::read` on in-memory cursors, which never fails (a short read zero-pads
the buffer instead), so no `BufferRead` error can ever be constructed. -/
theorem parse_log_entry_error_classification (cp : List ℕ → Option Certificate)
    (fts : ℤ → Option ℤ) (data extra : List ℕ) (e : LogError)
    (h : parse_log_entry cp fts data extra = .error e) :
    (∃ r, e = .Parse r) ∨ (∃ v, e = .UnsupportedVersion v) ∨
    (∃ v, e = .UnsupportedLeaf v) ∨ (∃ v, e = .UnsupportedEntry v) := by
  simp only [parse_log_entry] at h
  split_ifs at h
  all_goals first
    | (simp only [Except.error.injEq] at h; subst h; simp)
    | (exact Or.inl (parse_x509_error_parse cp _ data extra e h))
    | (exact Or.inl (parse_precert_error_parse cp _ data extra e h))

/-- Counterexample for C7 as stated: a leaf that declares a 5-byte
certificate but carries only one byte (a truncated buffer).  The in-memory
cursor read zero-pads the buffer instead of failing, the certificate parser
rejects the garbage, and the error is `Parse("parsing certificate!")` — not
`BufferRead`. -/
theorem truncated_buffer_reported_as_parse :
    parse_log_entry (fun _ => none) some
      [0, 0, 0, 0, 0, 0, 0, 0, 0, 0, 0, 0, 0, 0, 5, 1] [0, 0, 0]
      = .error (.Parse "parsing certificate!") ∧
    parse_log_entry (fun _ => none) some
      [0, 0, 0, 0, 0, 0, 0, 0, 0, 0, 0, 0, 0, 0, 5, 1] [0, 0, 0]
      ≠ .error (.BufferRead "reading certificate buffer!") := by
  constructor <;> decide

/-- C7 (amended).  The `LogError` enum declared in `src/error.rs` has exactly
the four variants `UnsupportedVersion(u8)`, `UnsupportedLeaf(u8)`,
`UnsupportedEntry(u16)` and `Parse(reason)`; every error the wire codec can
actually produce is among those four; and in particular no input — truncated
buffers included — is ever reported as a `BufferRead` error, because
`Read::read` on an in-memory cursor never fails (the `BufferRead` arms in
`src/endpoint.rs` are unreachable, and `src/error.rs` declares no such
variant). -/
theorem log_error_taxonomy :
    (∀ e : LogErrorDecl,
      (∃ v, e = .UnsupportedVersion v) ∨ (∃ v, e = .UnsupportedLeaf v) ∨
      (∃ v, e = .UnsupportedEntry v) ∨ (∃ r, e = .Parse r)) ∧
    (∀ (cp : List ℕ → Option Certificate) (fts : ℤ → Option ℤ)
      (data extra : List ℕ) (e : LogError),
      parse_log_entry cp fts data extra = .error e →
      (∃ r, e = .Parse r) ∨ (∃ v, e = .UnsupportedVersion v) ∨
      (∃ v, e = .UnsupportedLeaf v) ∨ (∃ v, e = .UnsupportedEntry v)) ∧
    (∀ (cp : List ℕ → Option Certificate) (fts : ℤ → Option ℤ)
      (data extra : List ℕ) (r : String),
      parse_log_entry cp fts data extra ≠ .error (.BufferRead r)) := by
  refine ⟨?_, parse_log_entry_error_classification, ?_⟩
  · intro e
    cases e <;> simp
  · intro cp fts data extra r hcontra
    rcases parse_log_entry_error_classification cp fts data extra _ hcontra with
      ⟨s, hs⟩ | ⟨v, hv⟩ | ⟨v, hv⟩ | ⟨v, hv⟩ <;> simp_all

/-- Witness for C7's amended claim, applying the classification to the
truncated-buffer input. -/
theorem log_error_taxonomy_witness :
    (∃ r, LogError.Parse "parsing certificate!" = .Parse r) ∨
    (∃ v, LogError.Parse "parsing certificate!" = .UnsupportedVersion v) ∨
    (∃ v, LogError.Parse "parsing certificate!" = .UnsupportedLeaf v) ∨
    (∃ v, LogError.Parse "parsing certificate!" = .UnsupportedEntry v) :=
  log_error_taxonomy.2.1 (fun _ => none) some
    [0, 0, 0, 0, 0, 0, 0, 0, 0, 0, 0, 0, 0, 0, 5, 1] [0, 0, 0]
    (.Parse "parsing certificate!") (by decide)

/-! ## Claim C10: the leaf timestamp never fails the parse -/

/-- The raw big-endian `u64` millisecond timestamp of a leaf. -/
def raw_timestamp (data : List ℕ) : ℕ := beBytes (sliceAt data 2 8)

/-- The X509 arm depends on the timestamp argument only through the
`timestamp` field of a successful result. -/
theorem parse_x509_timestamp (cp : List ℕ → Option Certificate) (ts ts' : ℤ)
    (data extra : List ℕ) :
    parse_x509_entry cp ts' data extra =
      Except.map (fun en => { en with timestamp := ts' })
        (parse_x509_entry cp ts data extra) := by
  simp only [parse_x509_entry]
  split
  · rfl
  · split
    · rfl
    · split
      · rfl
      · split <;> rfl

/-- The precert arm depends on the timestamp argument only through the
`timestamp` field of a successful result. -/
theorem parse_precert_timestamp (cp : List ℕ → Option Certificate) (ts ts' : ℤ)
    (data extra : List ℕ) :
    parse_precert_entry cp ts' data extra =
      Except.map (fun en => { en with timestamp := ts' })
        (parse_precert_entry cp ts data extra) := by
  simp only [parse_precert_entry]
  split
  · rfl
  · split
    · rfl
    · split
      · rfl
      · split
        · rfl
        · split <;> rfl

/-- C10.  Parsing never fails on the leaf timestamp field: the result of
`parse_log_entry` under any `from_timestamp_opt` behaviour is the result
under an always-representable clock with only the `timestamp` field replaced
by `from_timestamp_opt(t / 1000).unwrap_or_default()` — so errors are
unaffected, a representable `t / 1000` yields the instant `t / 1000` seconds
after the Unix epoch, and an out-of-range `t / 1000` silently becomes the
epoch (`0`) instead of an error. -/
theorem parse_timestamp_never_fails (cp : List ℕ → Option Certificate)
    (fts : ℤ → Option ℤ) (data extra : List ℕ) :
    parse_log_entry cp fts data extra =
      Except.map (fun en =>
          { en with timestamp := (fts ((raw_timestamp data / 1000 : ℕ) : ℤ)).getD 0 })
        (parse_log_entry cp (fun s => some s) data extra) ∧
    (∀ en, parse_log_entry cp fts data extra = .ok en →
      (fts ((raw_timestamp data / 1000 : ℕ) : ℤ) =
          some ((raw_timestamp data / 1000 : ℕ) : ℤ) →
        en.timestamp = ((raw_timestamp data / 1000 : ℕ) : ℤ)) ∧
      (fts ((raw_timestamp data / 1000 : ℕ) : ℤ) = none → en.timestamp = 0)) := by
  have hmap : parse_log_entry cp fts data extra =
      Except.map (fun en =>
          { en with timestamp := (fts ((raw_timestamp data / 1000 : ℕ) : ℤ)).getD 0 })
        (parse_log_entry cp (fun s => some s) data extra) := by
    simp only [parse_log_entry, raw_timestamp, Option.getD_some]
    split_ifs <;> first
      | rfl
      | exact parse_x509_timestamp cp _ _ data extra
      | exact parse_precert_timestamp cp _ _ data extra
  refine ⟨hmap, ?_⟩
  intro en hok
  rw [hmap] at hok
  rcases hx : parse_log_entry cp (fun s => some s) data extra with e | en₀ <;>
    rw [hx] at hok
  · simp [Except.map] at hok
  · simp only [Except.map, Except.ok.injEq] at hok
    subst hok
    constructor
    · intro hsome
      simp only [hsome, Option.getD_some]
    · intro hnone
      simp only [hnone, Option.getD_none]

/-- A concrete parsed certificate used by the concrete-input witnesses. -/
def cert_w : Certificate := ⟨none, false, none, none, [], ⟨0, 0⟩, [7]⟩

/-- A certificate parser that accepts everything, producing `cert_w`. -/
def certparse_w : List ℕ → Option Certificate := fun _ => some cert_w

/-- A well-formed X509 leaf: version 0, leaf type 0, timestamp 5000 ms,
entry type 0, a 1-byte certificate. -/
def leaf_w : List ℕ := [0, 0, 0, 0, 0, 0, 0, 0, 19, 136, 0, 0, 0, 0, 1, 7]

/-- An extra-data blob with an empty certificate chain. -/
def extra_w : List ℕ := [0, 0, 0]

/-- Witness for C10: on a concrete well-formed leaf, an out-of-range clock
silently yields the epoch timestamp and an in-range clock yields
`5000 / 1000 = 5` seconds, with the parse succeeding either way. -/
theorem parse_timestamp_never_fails_witness :
    parse_log_entry certparse_w (fun _ => none) leaf_w extra_w = .ok ⟨0, cert_w, []⟩ ∧
    (Entry.mk 0 cert_w []).timestamp = 0 ∧
    parse_log_entry certparse_w (fun s => some s) leaf_w extra_w = .ok ⟨5, cert_w, []⟩ ∧
    (Entry.mk 5 cert_w []).timestamp = ((raw_timestamp leaf_w / 1000 : ℕ) : ℤ) := by
  have h0 : parse_log_entry certparse_w (fun _ => none) leaf_w extra_w
      = .ok ⟨0, cert_w, []⟩ := by
    simp [parse_log_entry, parse_x509_entry, leaf_w, extra_w, certparse_w, sliceAt,
      beBytes, readBuffer, read_chain]
  have h5 : parse_log_entry certparse_w (fun s => some s) leaf_w extra_w
      = .ok ⟨5, cert_w, []⟩ := by
    simp [parse_log_entry, parse_x509_entry, leaf_w, extra_w, certparse_w, sliceAt,
      beBytes, readBuffer, read_chain]
  refine ⟨h0, ?_, h5, ?_⟩
  · exact ((parse_timestamp_never_fails certparse_w (fun _ => none) leaf_w extra_w).2
      ⟨0, cert_w, []⟩ h0).2 rfl
  · exact ((parse_timestamp_never_fails certparse_w (fun s => some s) leaf_w extra_w).2
      ⟨5, cert_w, []⟩ h5).1 rfl

end Certain
